import Mathlib

/-!
Verification of the Rossmann feature-engineering notebook.

The notebook is a pandas pipeline: left joins of auxiliary tables onto the
sales/test transaction tables, date-derived competition/promotion features,
per-store event-proximity features (forward/backward fill of carry-point
dates), 7-row rolling event sums, a zero-sales filter and a date-sorted
train/validation split.

We shallowly embed the pipeline: a dataframe is a list of rows, each row a
list of named cells (a cell is `Option Int`, `none` modelling a pandas NaN);
the column list is carried alongside so that an empty table still has a
schema.  Dates are modelled as integers (days since an epoch), matching
pandas day-difference arithmetic on midnight-aligned datetimes.
-/

set_option autoImplicit false

namespace Rossmann

/-- A cell of a dataframe row: column name paired with an optional integer
value (`none` is pandas NaN). -/
abbrev Cell := String × Option Int

/-- A dataframe row: named cells in column order. -/
abbrev Row := List Cell

/-- A dataframe: its column names and its rows. -/
structure Table where
  cols : List String
  rows : List Row
  deriving Repr, DecidableEq

/-- Look up the value of column `c` in a row (first matching cell, as a
dataframe has one cell per column; `none` both for a NaN cell and for an
absent column). -/
def lookup (r : Row) (c : String) : Option Int :=
  match r.find? (fun p => p.1 == c) with
  | some p => p.2
  | none => none

/-- The names of a row's cells. -/
def names (r : Row) : List String := r.map Prod.fst

/-- Do a left row and a right row agree on the join keys?  Mirrors pandas
merge key matching, which factorizes the key columns of both sides
together and coalesces their NaN keys into a single group: two equal
values match, and a NaN key matches a NaN key (unlike SQL equality). -/
def keysMatch (lOn rOn : List String) (lrow rrow : Row) : Bool :=
  (lOn.zip rOn).all (fun p => lookup lrow p.1 == lookup rrow p.2)

/-- The right-side join-key columns that pandas merges away (those whose
name coincides with the corresponding left key, so only one copy appears
in the output). -/
def mergedKeys (lOn rOn : List String) : List String :=
  ((lOn.zip rOn).filter (fun p => p.1 == p.2)).map Prod.snd

/-- Rename a kept right-side column as pandas `suffixes=('', suf)` does:
a name colliding with a left column gets `suf` appended, others are kept. -/
def renameRight (lcols : List String) (suf : String) (c : String) : String :=
  if lcols.contains c then c ++ suf else c

/-- The cells a matching right row contributes to an output row: drop the
merged key columns, rename collisions. -/
def rightCells (lOn rOn : List String) (lcols : List String) (suf : String)
    (rrow : Row) : Row :=
  (rrow.filter (fun p => !(mergedKeys lOn rOn).contains p.1)).map
    (fun p => (renameRight lcols suf p.1, p.2))

/-- The kept (and renamed) right column names of a merge output. -/
def keptRightCols (lOn rOn : List String) (lcols rcols : List String)
    (suf : String) : List String :=
  (rcols.filter (fun c => !(mergedKeys lOn rOn).contains c)).map
    (renameRight lcols suf)

/-- The right rows matching a given left row. -/
def matchesOf (r : Table) (lOn rOn : List String) (lrow : Row) : List Row :=
  r.rows.filter (fun rrow => keysMatch lOn rOn lrow rrow)

/-- Pandas `left.merge(right, how='left', left_on, right_on,
suffixes=('', suf))`: every left row is kept in order; a left row with k
matching right rows produces k output rows (one per match, in right-table
order), and a left row with no match produces one output row whose
appended right cells are all NaN. -/
def pdMerge (l r : Table) (lOn rOn : List String) (suf : String) : Table :=
  { cols := l.cols ++ keptRightCols lOn rOn l.cols r.cols suf
    rows := l.rows.flatMap (fun lrow =>
      let ms := matchesOf r lOn rOn lrow
      if ms.isEmpty then
        [lrow ++ (keptRightCols lOn rOn l.cols r.cols suf).map
          (fun c => (c, (none : Option Int)))]
      else
        ms.map (fun rrow => lrow ++ rightCells lOn rOn l.cols suf rrow)) }

/-- Does a column name match the regex `_y$`, i.e. are its last two
characters `_y`? -/
def hasYSuffix (c : String) : Bool :=
  c.data.reverse.take 2 == ['y', '_']

/-- Drop every column whose name ends in `_y` (pandas
`df.drop(columns=df.filter(regex='_y$').columns)`). -/
def dropYCols (t : Table) : Table :=
  { cols := t.cols.filter (fun c => !hasYSuffix c)
    rows := t.rows.map (fun r => r.filter (fun p => !hasYSuffix p.1)) }

namespace LeftMerger

/-- The notebook's `LeftMerger.merge` accessor: a left merge with left
suffix `''` and right suffix `suffix or '_y'`; when `suffix` is omitted
every column matching the regex `_y$` is dropped afterwards. -/
def merge (l r : Table) (lOn : List String) (rOn : Option (List String))
    (suffix : Option String) : Table :=
  let df := pdMerge l r lOn (rOn.getD lOn) (suffix.getD "_y")
  match suffix with
  | none => dropYCols df
  | some _ => df

end LeftMerger

/-- The cells appended to a left row by the merge when right keys are
unique: the (renamed) cells of its single matching right row, or all-NaN
cells when it has no match. -/
def extOf (r : Table) (lOn rOn : List String) (lcols rcols : List String)
    (suf : String) (lrow : Row) : Row :=
  match matchesOf r lOn rOn lrow with
  | [] => (keptRightCols lOn rOn lcols rcols suf).map
      (fun c => (c, (none : Option Int)))
  | rrow :: _ => rightCells lOn rOn lcols suf rrow

/-- The row-level effect of the suffix argument: with no suffix the `_y$`
columns are dropped from the row, with a suffix the row is untouched. -/
def rowFilterSuffix : Option String → Row → Row
  | none, row => row.filter (fun p => !hasYSuffix p.1)
  | some _, row => row

/-! ### Splitter (notebook cells 27-28)

`train_df = train_df[train_df.Sales != 0]`, then sort by date,
`num_valid = int(VALID_FRAC*len(train_df))`,
`valid_df = train_df[-num_valid:]`, `train_df = train_df[:-num_valid]`.
Split rows carry only the fields this stage reads: a date and a sales
amount. -/

/-- A row as seen by the splitter stage: its date and its sales amount. -/
structure SRow where
  date : Int
  sales : Int
  deriving Repr, DecidableEq

/-- Python `l[:-k]`: all but the last `k` elements for `k > 0`, but the
empty list for `k = 0` (since `l[:-0]` is `l[:0]`). -/
def pyDropLast {α : Type} (l : List α) (k : Nat) : List α :=
  if k = 0 then [] else l.take (l.length - k)

/-- Python `l[-k:]`: the last `k` elements for `0 < k ≤ len(l)`, the whole
list for `k = 0` (since `l[-0:]` is `l[0:]`) or `k > len(l)`. -/
def pyLastK {α : Type} (l : List α) (k : Nat) : List α :=
  if k = 0 then l else l.drop (l.length - k)

/-- `train_df.sort_values(by='Date')`: sort rows by date ascending. -/
def sortByDate (rows : List SRow) : List SRow :=
  rows.insertionSort (fun a b => a.date ≤ b.date)

/-- `int(VALID_FRAC*len(train_df))` with `VALID_FRAC = 0.25`: since
`0.25*n` is exact in floating point, this is `n / 4` rounded toward zero. -/
def numValid (n : Nat) : Nat := n / 4

/-- Notebook cell 28: sort by date, take the trailing `num_valid` rows as
validation (Python slice `[-num_valid:]`) and the rest as training
(`[:-num_valid]`).  Returns (training, validation). -/
def splitTrainValid (rows : List SRow) : List SRow × List SRow :=
  let sorted := sortByDate rows
  let nv := numValid sorted.length
  (pyDropLast sorted nv, pyLastK sorted nv)

/-- Notebook cells 27-29 combined: filter zero-sales rows off the training
table, split it, and pass the test table through untouched.  Returns
(training output, validation output, test output). -/
def pipelineOutputs (train test : List SRow) :
    List SRow × List SRow × List SRow :=
  let f := train.filter (fun r => r.sales != 0)
  let p := splitTrainValid f
  (p.1, p.2, test)

/-! ### Date-derived features (notebook cells 14-19)

Dates are days since the civil epoch 1970-01-01; `daysFromCivil` is the
standard civil-calendar day count, embedding `pd.to_datetime`.  All year
values in play are positive, so truncated / floored / Euclidean division
agree everywhere below. -/

/-- Days since 1970-01-01 of the Gregorian date `y-m-d` (the standard
days-from-civil computation). -/
def daysFromCivil (y m d : Int) : Int :=
  let y2 := if m ≤ 2 then y - 1 else y
  let era := (if 0 ≤ y2 then y2 else y2 - 399) / 400
  let yoe := y2 - era * 400
  let mp := (m + 9) % 12
  let doy := (153 * mp + 2) / 5 + d - 1
  let doe := yoe * 365 + yoe / 4 - yoe / 100 + doy
  era * 146097 + doe - 719468

/-- The fields of a train/test row that the date-derived feature stage
reads and writes.  Field names follow the notebook's column names. -/
structure DFRow where
  Date : Int
  CompetitionOpenSinceYear : Int
  CompetitionOpenSinceMonth : Int
  Promo2SinceYear : Int
  Promo2SinceWeek : Int
  CompetitionOpenSince : Int := 0
  CompetitionDaysOpen : Int := 0
  CompetitionMonthsOpen : Int := 0
  Promo2Since : Int := 0
  Promo2Days : Int := 0
  Promo2Weeks : Int := 0
  deriving Repr, DecidableEq

/-- Notebook cell 14: fill missing since-fields with the sentinel defaults
(year 1900, month/week 1). -/
def fillSinceDefaults (date : Int) (cy cm py pw : Option Int) : DFRow :=
  { Date := date
    CompetitionOpenSinceYear := cy.getD 1900
    CompetitionOpenSinceMonth := cm.getD 1
    Promo2SinceYear := py.getD 1900
    Promo2SinceWeek := pw.getD 1 }

/-- Notebook cell 15: `CompetitionOpenSince` is the date
(CompetitionOpenSinceYear, CompetitionOpenSinceMonth, day 15) and
`CompetitionDaysOpen` its raw day difference from the row date. -/
def competitionSinceCell (r : DFRow) : DFRow :=
  let since := daysFromCivil r.CompetitionOpenSinceYear
    r.CompetitionOpenSinceMonth 15
  { r with CompetitionOpenSince := since
           CompetitionDaysOpen := r.Date - since }

/-- Notebook cell 16: clamp negative `CompetitionDaysOpen` to 0, then zero
it whenever `CompetitionOpenSinceYear < 1990`. -/
def competitionClampCell (r : DFRow) : DFRow :=
  let r1 := if r.CompetitionDaysOpen < 0
    then { r with CompetitionDaysOpen := 0 } else r
  if r1.CompetitionOpenSinceYear < 1990
    then { r1 with CompetitionDaysOpen := 0 } else r1

/-- Notebook cell 17: `CompetitionMonthsOpen = CompetitionDaysOpen // 30`,
then values above 24 are replaced by 24. -/
def competitionMonthsCell (r : DFRow) : DFRow :=
  let r1 := { r with CompetitionMonthsOpen := r.CompetitionDaysOpen / 30 }
  if r1.CompetitionMonthsOpen > 24
    then { r1 with CompetitionMonthsOpen := 24 } else r1

/-- Notebook cell 18: `Promo2Since` is Jan 1 of `Promo2SinceYear` plus
`7 * Promo2SinceWeek` days (the cell works in epoch seconds:
`pd.to_datetime(year, format='%Y')` as seconds plus `7*24*3600*week`,
converted back to a datetime, which is exactly this many whole days), and
`Promo2Days` its raw day difference from the row date. -/
def promo2SinceCell (r : DFRow) : DFRow :=
  let since := daysFromCivil r.Promo2SinceYear 1 1 + 7 * r.Promo2SinceWeek
  { r with Promo2Since := since
           Promo2Days := r.Date - since }

/-- Notebook cell 19: clamp negative `Promo2Days` to 0, zero it whenever
`Promo2SinceYear < 1990`, then `Promo2Weeks = Promo2Days // 7` clamped
below by 0 and above by 25. -/
def promo2ClampCell (r : DFRow) : DFRow :=
  let r1 := if r.Promo2Days < 0 then { r with Promo2Days := 0 } else r
  let r2 := if r1.Promo2SinceYear < 1990
    then { r1 with Promo2Days := 0 } else r1
  let r3 := { r2 with Promo2Weeks := r2.Promo2Days / 7 }
  let r4 := if r3.Promo2Weeks < 0 then { r3 with Promo2Weeks := 0 } else r3
  if r4.Promo2Weeks > 25 then { r4 with Promo2Weeks := 25 } else r4

/-- Notebook cells 15-19 in order, as applied to every train/test row. -/
def deriveDateFeatures (r : DFRow) : DFRow :=
  promo2ClampCell (promo2SinceCell (competitionMonthsCell
    (competitionClampCell (competitionSinceCell r))))

/-! ### Event proximity (notebook cell 21)

Per store the concatenated table is sorted by date; a row of one store's
range is a (date, event-flag) pair.  The cell blanks the date of every row
whose event flag is 0 and which is neither the first nor the last row of
its store's range, forward/backward-fills the blanked column, and takes
day differences against the row date. -/

/-- Propagate the last valid value forward across `none` entries, starting
from `init` (pandas `ffill`). -/
def ffill {α : Type} (init : Option α) : List (Option α) → List (Option α)
  | [] => []
  | x :: xs =>
    let cur := match x with
      | some v => some v
      | none => init
    cur :: ffill cur xs

/-- Propagate the next valid value backward across `none` entries (pandas
`bfill`): forward-fill the reversed sequence. -/
def bfill {α : Type} (l : List (Option α)) : List (Option α) :=
  (ffill none l.reverse).reverse

/-- Is row `i` of a store's date-sorted range a carry point for the event:
the flag is set, or the row is the first or last of the range?  (In the
cell: `~((df[field] == 0) & idx_mask)` where `idx_mask` excludes each
store's first and last row.) -/
def isCarry (rows : List (Int × Bool)) (i : Nat) : Bool :=
  (rows.getD i (0, false)).2 || i == 0 || i == rows.length - 1

/-- The `tmp` column of the cell for one store's range: the row date where
the row is a carry point, blank (NaN) otherwise. -/
def carryDates (rows : List (Int × Bool)) : List (Option Int) :=
  (List.range rows.length).map (fun i =>
    if isCarry rows i then some (rows.getD i (0, false)).1 else none)

/-- `After<field>` for one store's range: row date minus the
forward-filled carry date, in days. -/
def afterEvent (rows : List (Int × Bool)) : List (Option Int) :=
  (rows.zip (ffill none (carryDates rows))).map
    (fun p => p.2.map (fun v => p.1.1 - v))

/-- `Before<field>` for one store's range: the backward-filled carry date
minus the row date, in days. -/
def beforeEvent (rows : List (Int × Bool)) : List (Option Int) :=
  (rows.zip (bfill (carryDates rows))).map
    (fun p => p.2.map (fun v => v - p.1.1))

/-- The greatest carry-point index at or before `i` (the index whose date
the forward fill delivers to row `i`). -/
def lastCarryIdx (rows : List (Int × Bool)) (i : Nat) : Option Nat :=
  ((List.range (i + 1)).filter (fun j => isCarry rows j)).getLast?

/-- The least carry-point index at or after `i` (the index whose date the
backward fill delivers to row `i`). -/
def nextCarryIdx (rows : List (Int × Bool)) (i : Nat) : Option Nat :=
  (((List.range rows.length).drop i).filter (fun j => isCarry rows j)).head?

/-- The binary step of a forward fill: keep the new value when it is
valid, otherwise carry the accumulator. -/
def stepLast {α : Type} (acc x : Option α) : Option α :=
  match x with
  | some v => some v
  | none => acc

/-! ### Rolling event sums (notebook cell 22)

`rolling(7, min_periods=1).sum()` per store over the date-sorted rows
(ascending for `_bw`, descending for `_fw`). -/

/-- Pandas `rolling(w, min_periods=m).sum()` over a store's flag column:
at position `i` the window is the last `min (i+1) w` entries up to and
including `i`; the sum is produced when the window holds at least `m`
entries and is NaN otherwise. -/
def rollingSum (w m : Nat) (xs : List Int) : List (Option Int) :=
  (List.range xs.length).map (fun i =>
    let win := (xs.take (i + 1)).drop (i + 1 - w)
    if m ≤ win.length then some win.sum else none)

/-- The `<field>_bw` column for one store: 7-row trailing rolling sum. -/
def bwdRolling (xs : List Int) : List (Option Int) :=
  rollingSum 7 1 xs

/-- The `<field>_fw` column for one store: the trailing rolling sum of the
descending-sorted rows, realigned ascending — a 7-row leading sum. -/
def fwdRolling (xs : List Int) : List (Option Int) :=
  (rollingSum 7 1 xs.reverse).reverse

/-- The sum of the flags over the trailing window `{j | j ≤ i ≤ j + 6}` of
a store's range (the spec's "current date and up to 6 preceding dates"). -/
def windowSumTrailing (xs : List Int) (i : Nat) : Int :=
  (((List.range xs.length).filter (fun j => j ≤ i && i ≤ j + 6)).map
    (fun j => xs.getD j 0)).sum

/-- The sum of the flags over the leading window `{j | i ≤ j ≤ i + 6}` of
a store's range (the spec's "current date and up to 6 following dates"). -/
def windowSumLeading (xs : List Int) (i : Nat) : Int :=
  (((List.range xs.length).filter (fun j => i ≤ j && j ≤ i + 6)).map
    (fun j => xs.getD j 0)).sum

/-! ### Sortedness instances for the splitter's date order -/

instance : IsTotal SRow (fun a b => a.date ≤ b.date) :=
  ⟨fun a b => Int.le_total a.date b.date⟩

instance : IsTrans SRow (fun a b => a.date ≤ b.date) :=
  ⟨fun _ _ _ hab hbc => Int.le_trans hab hbc⟩

/-! ### Concrete tables used in counterexamples and witnesses -/

def dupLeft : Table := ⟨["k"], [[("k", some 1)]]⟩

def dupRight : Table :=
  ⟨["k", "v"], [[("k", some 1), ("v", some 2)], [("k", some 1), ("v", some 3)]]⟩

def wLeft : Table :=
  ⟨["k", "a"], [[("k", some 1), ("a", some 10)], [("k", some 2), ("a", some 20)]]⟩

def wRight : Table := ⟨["k", "v"], [[("k", some 1), ("v", some 7)]]⟩

def yLeft : Table :=
  ⟨["k", "b_y"], [[("k", some 1), ("b_y", some 5)]]⟩

def yRight : Table := ⟨["k", "v"], [[("k", some 1), ("v", some 2)]]⟩

def sLeft : Table :=
  ⟨["k", "x"], [[("k", some 1), ("x", some 3)]]⟩

def sRight : Table :=
  ⟨["k", "x", "w"], [[("k", some 1), ("x", some 4), ("w", some 9)]]⟩

/-! ## Theorems -/

/-! ### Splitter lemmas -/

theorem sortByDate_perm (rows : List SRow) : (sortByDate rows).Perm rows :=
  List.perm_insertionSort _ rows

theorem sortByDate_sorted (rows : List SRow) :
    (sortByDate rows).Sorted (fun a b => a.date ≤ b.date) :=
  List.sorted_insertionSort _ rows

theorem sortByDate_length (rows : List SRow) :
    (sortByDate rows).length = rows.length :=
  (sortByDate_perm rows).length_eq

theorem mem_split_left {rows : List SRow} {x : SRow}
    (hx : x ∈ (splitTrainValid rows).1) : x ∈ rows := by
  have : x ∈ sortByDate rows := by
    unfold splitTrainValid pyDropLast at hx
    simp only at hx
    split at hx
    · simp at hx
    · exact List.mem_of_mem_take hx
  exact (sortByDate_perm rows).mem_iff.mp this

theorem mem_split_right {rows : List SRow} {x : SRow}
    (hx : x ∈ (splitTrainValid rows).2) : x ∈ rows := by
  have : x ∈ sortByDate rows := by
    unfold splitTrainValid pyLastK at hx
    simp only at hx
    split at hx
    · exact hx
    · exact List.mem_of_mem_drop hx
  exact (sortByDate_perm rows).mem_iff.mp this

/-- C7: with `VALID_FRAC = 0.25` and 100 post-filter training rows, the
splitter puts exactly the 25 latest-by-date rows into the validation
output and the 75 earliest into the training output; the two outputs are
the two halves of the date-sorted rows, which are a permutation of the
input (every row exactly once, none shared). -/
theorem split_hundred (rows : List SRow) (h : rows.length = 100) :
    (splitTrainValid rows).1.length = 75 ∧
    (splitTrainValid rows).2.length = 25 ∧
    (splitTrainValid rows).1 ++ (splitTrainValid rows).2 = sortByDate rows ∧
    (sortByDate rows).Perm rows ∧
    (∀ x ∈ (splitTrainValid rows).1, ∀ y ∈ (splitTrainValid rows).2,
      x.date ≤ y.date) := by
  have hlen : (sortByDate rows).length = 100 := by rw [sortByDate_length, h]
  have h1 : (splitTrainValid rows).1 = (sortByDate rows).take 75 := by
    simp [splitTrainValid, pyDropLast, numValid, hlen]
  have h2 : (splitTrainValid rows).2 = (sortByDate rows).drop 75 := by
    simp [splitTrainValid, pyLastK, numValid, hlen]
  refine ⟨?_, ?_, ?_, sortByDate_perm rows, ?_⟩
  · rw [h1, List.length_take, hlen]; omega
  · rw [h2, List.length_drop, hlen]
  · rw [h1, h2, List.take_append_drop]
  · intro x hx y hy
    have hpw : (sortByDate rows).Pairwise (fun a b => a.date ≤ b.date) :=
      sortByDate_sorted rows
    rw [← List.take_append_drop 75 (sortByDate rows)] at hpw
    rw [h1] at hx; rw [h2] at hy
    exact (List.pairwise_append.mp hpw).2.2 x hx y hy

/-- C7 witness: the split of 100 concrete rows. -/
theorem split_hundred_witness :
    ((List.range 100).map (fun i => SRow.mk i 1)).length = 100 ∧
    (((splitTrainValid ((List.range 100).map (fun i => SRow.mk i 1))).1.length = 75) ∧
     ((splitTrainValid ((List.range 100).map (fun i => SRow.mk i 1))).2.length = 25) ∧
     ((splitTrainValid ((List.range 100).map (fun i => SRow.mk i 1))).1 ++
       (splitTrainValid ((List.range 100).map (fun i => SRow.mk i 1))).2 =
       sortByDate ((List.range 100).map (fun i => SRow.mk i 1))) ∧
     ((sortByDate ((List.range 100).map (fun i => SRow.mk i 1))).Perm
       ((List.range 100).map (fun i => SRow.mk i 1))) ∧
     (∀ x ∈ (splitTrainValid ((List.range 100).map (fun i => SRow.mk i 1))).1,
       ∀ y ∈ (splitTrainValid ((List.range 100).map (fun i => SRow.mk i 1))).2,
        x.date ≤ y.date)) :=
  ⟨by decide, split_hundred _ (by decide)⟩

/-- C8: after the zero-sales filter, no row of the training or validation
output has zero sales; the validation count is computed from the
post-filter row count; the test output is passed through unfiltered. -/
theorem zero_sales_filter (train test : List SRow) :
    (∀ x ∈ (pipelineOutputs train test).1, x.sales ≠ 0) ∧
    (∀ x ∈ (pipelineOutputs train test).2.1, x.sales ≠ 0) ∧
    ((pipelineOutputs train test).2.1.length =
      (if numValid (train.filter (fun r => r.sales != 0)).length = 0 then
        (train.filter (fun r => r.sales != 0)).length
       else numValid (train.filter (fun r => r.sales != 0)).length)) ∧
    (pipelineOutputs train test).2.2 = test := by
  have hmemf : ∀ x ∈ train.filter (fun r => r.sales != 0), x.sales ≠ 0 := by
    intro x hx
    have := (List.mem_filter.mp hx).2
    simpa using this
  refine ⟨?_, ?_, ?_, rfl⟩
  · intro x hx
    exact hmemf x (mem_split_left hx)
  · intro x hx
    exact hmemf x (mem_split_right hx)
  · show (splitTrainValid (train.filter (fun r => r.sales != 0))).2.length = _
    set f := train.filter (fun r => r.sales != 0) with hf
    have hsl : (sortByDate f).length = f.length := sortByDate_length f
    unfold splitTrainValid pyLastK
    simp only [hsl]
    split
    · next h => simp [hsl, h]
    · next h =>
      rw [List.length_drop, hsl]
      have : numValid f.length ≤ f.length :=
        Nat.div_le_self _ _
      omega

/-- C8 witness: a training table with one zero-sales row and a zero-sales
test row. -/
theorem zero_sales_filter_witness :
    (∀ x ∈ (pipelineOutputs [⟨0, 0⟩, ⟨1, 5⟩, ⟨2, 3⟩] [⟨3, 0⟩]).1, x.sales ≠ 0) ∧
    (∀ x ∈ (pipelineOutputs [⟨0, 0⟩, ⟨1, 5⟩, ⟨2, 3⟩] [⟨3, 0⟩]).2.1, x.sales ≠ 0) ∧
    ((pipelineOutputs [⟨0, 0⟩, ⟨1, 5⟩, ⟨2, 3⟩] [⟨3, 0⟩]).2.1.length =
      (if numValid (([⟨0, 0⟩, ⟨1, 5⟩, ⟨2, 3⟩] : List SRow).filter
          (fun r => r.sales != 0)).length = 0 then
        (([⟨0, 0⟩, ⟨1, 5⟩, ⟨2, 3⟩] : List SRow).filter
          (fun r => r.sales != 0)).length
       else numValid (([⟨0, 0⟩, ⟨1, 5⟩, ⟨2, 3⟩] : List SRow).filter
          (fun r => r.sales != 0)).length)) ∧
    (pipelineOutputs [⟨0, 0⟩, ⟨1, 5⟩, ⟨2, 3⟩] [⟨3, 0⟩]).2.2 = [⟨3, 0⟩] :=
  zero_sales_filter [⟨0, 0⟩, ⟨1, 5⟩, ⟨2, 3⟩] [⟨3, 0⟩]

/-- C9: when the computed validation count is 0 (fewer than 4 post-filter
rows at the default fraction), the Python slices `[:-0]` and `[-0:]` make
the training output empty and send every row to the validation output. -/
theorem tiny_split (rows : List SRow) (h : rows.length < 4) :
    (splitTrainValid rows).1 = [] ∧ (splitTrainValid rows).2.Perm rows := by
  have hnv : numValid (sortByDate rows).length = 0 := by
    rw [sortByDate_length]
    unfold numValid
    omega
  constructor
  · unfold splitTrainValid pyDropLast
    simp [hnv]
  · unfold splitTrainValid pyLastK
    simp only [hnv, if_pos rfl]
    exact sortByDate_perm rows

/-- C9 witness: a 3-row post-filter table. -/
theorem tiny_split_witness :
    ([(⟨5, 1⟩ : SRow), ⟨4, 2⟩, ⟨6, 3⟩].length < 4) ∧
    ((splitTrainValid [⟨5, 1⟩, ⟨4, 2⟩, ⟨6, 3⟩]).1 = [] ∧
     (splitTrainValid [(⟨5, 1⟩ : SRow), ⟨4, 2⟩, ⟨6, 3⟩]).2.Perm
       [⟨5, 1⟩, ⟨4, 2⟩, ⟨6, 3⟩]) :=
  ⟨by decide, tiny_split _ (by decide)⟩

/-! ### Date-derived feature lemmas -/

theorem competitionSinceCell_eq (r : DFRow) :
    competitionSinceCell r =
      { r with
        CompetitionOpenSince := daysFromCivil r.CompetitionOpenSinceYear
          r.CompetitionOpenSinceMonth 15
        CompetitionDaysOpen := r.Date - daysFromCivil
          r.CompetitionOpenSinceYear r.CompetitionOpenSinceMonth 15 } := rfl

theorem promo2SinceCell_eq (r : DFRow) :
    promo2SinceCell r =
      { r with
        Promo2Since := daysFromCivil r.Promo2SinceYear 1 1 +
          7 * r.Promo2SinceWeek
        Promo2Days := r.Date - (daysFromCivil r.Promo2SinceYear 1 1 +
          7 * r.Promo2SinceWeek) } := rfl

theorem competitionClampCell_eq (r : DFRow) :
    competitionClampCell r =
      { r with CompetitionDaysOpen :=
          if r.CompetitionOpenSinceYear < 1990 then 0
          else if r.CompetitionDaysOpen < 0 then 0
          else r.CompetitionDaysOpen } := by
  unfold competitionClampCell
  by_cases h1 : r.CompetitionDaysOpen < 0 <;>
    by_cases h2 : r.CompetitionOpenSinceYear < 1990 <;>
    simp [h1, h2]

theorem competitionMonthsCell_eq (r : DFRow) :
    competitionMonthsCell r =
      { r with CompetitionMonthsOpen :=
          if 24 < r.CompetitionDaysOpen / 30 then 24
          else r.CompetitionDaysOpen / 30 } := by
  unfold competitionMonthsCell
  by_cases h : 24 < r.CompetitionDaysOpen / 30 <;> simp [h]

theorem promo2ClampCell_eq (r : DFRow) :
    promo2ClampCell r =
      { r with
        Promo2Days :=
          if r.Promo2SinceYear < 1990 then 0
          else if r.Promo2Days < 0 then 0 else r.Promo2Days
        Promo2Weeks :=
          if 25 < (if r.Promo2SinceYear < 1990 then 0
              else if r.Promo2Days < 0 then 0 else r.Promo2Days) / 7 then 25
          else (if r.Promo2SinceYear < 1990 then 0
              else if r.Promo2Days < 0 then 0 else r.Promo2Days) / 7 } := by
  unfold promo2ClampCell
  have hz : ¬ (0 : Int) / 7 < 0 := by norm_num
  by_cases h1 : r.Promo2Days < 0 <;>
    by_cases h2 : r.Promo2SinceYear < 1990 <;>
    simp only [h1, h2, if_true, if_false, ite_true, ite_false] <;>
    simp [hz]
  have hnn : ¬ r.Promo2Days / 7 < 0 := by
    have := Int.ediv_nonneg (by omega : (0:Int) ≤ r.Promo2Days)
      (by norm_num : (0:Int) ≤ 7)
    omega
  simp only [hnn, if_false, ite_false]
  split_ifs <;> rfl

theorem deriveDateFeatures_eq (r : DFRow) :
    deriveDateFeatures r =
      { r with
        CompetitionOpenSince := daysFromCivil r.CompetitionOpenSinceYear
          r.CompetitionOpenSinceMonth 15
        CompetitionDaysOpen :=
          if r.CompetitionOpenSinceYear < 1990 then 0
          else if r.Date - daysFromCivil r.CompetitionOpenSinceYear
              r.CompetitionOpenSinceMonth 15 < 0 then 0
          else r.Date - daysFromCivil r.CompetitionOpenSinceYear
            r.CompetitionOpenSinceMonth 15
        CompetitionMonthsOpen :=
          if 24 < (if r.CompetitionOpenSinceYear < 1990 then 0
              else if r.Date - daysFromCivil r.CompetitionOpenSinceYear
                  r.CompetitionOpenSinceMonth 15 < 0 then 0
              else r.Date - daysFromCivil r.CompetitionOpenSinceYear
                r.CompetitionOpenSinceMonth 15) / 30 then 24
          else (if r.CompetitionOpenSinceYear < 1990 then 0
              else if r.Date - daysFromCivil r.CompetitionOpenSinceYear
                  r.CompetitionOpenSinceMonth 15 < 0 then 0
              else r.Date - daysFromCivil r.CompetitionOpenSinceYear
                r.CompetitionOpenSinceMonth 15) / 30
        Promo2Since := daysFromCivil r.Promo2SinceYear 1 1 +
          7 * r.Promo2SinceWeek
        Promo2Days :=
          if r.Promo2SinceYear < 1990 then 0
          else if r.Date - (daysFromCivil r.Promo2SinceYear 1 1 +
              7 * r.Promo2SinceWeek) < 0 then 0
          else r.Date - (daysFromCivil r.Promo2SinceYear 1 1 +
            7 * r.Promo2SinceWeek)
        Promo2Weeks :=
          if 25 < (if r.Promo2SinceYear < 1990 then 0
              else if r.Date - (daysFromCivil r.Promo2SinceYear 1 1 +
                  7 * r.Promo2SinceWeek) < 0 then 0
              else r.Date - (daysFromCivil r.Promo2SinceYear 1 1 +
                7 * r.Promo2SinceWeek)) / 7 then 25
          else (if r.Promo2SinceYear < 1990 then 0
              else if r.Date - (daysFromCivil r.Promo2SinceYear 1 1 +
                  7 * r.Promo2SinceWeek) < 0 then 0
              else r.Date - (daysFromCivil r.Promo2SinceYear 1 1 +
                7 * r.Promo2SinceWeek)) / 7 } := by
  unfold deriveDateFeatures
  rw [competitionSinceCell_eq r, competitionClampCell_eq,
    competitionMonthsCell_eq, promo2SinceCell_eq, promo2ClampCell_eq]

/-- C3: after the date-derived feature stage, `CompetitionDaysOpen` and
`Promo2Days` are never negative, `CompetitionMonthsOpen` lies in [0, 24],
`Promo2Weeks` lies in [0, 25], and a sentinel since-year below 1990 (the
fill value 1900 in particular) forces the corresponding duration to 0. -/
theorem date_feature_clamping (r0 : DFRow) :
    0 ≤ (deriveDateFeatures r0).CompetitionDaysOpen ∧
    0 ≤ (deriveDateFeatures r0).Promo2Days ∧
    0 ≤ (deriveDateFeatures r0).CompetitionMonthsOpen ∧
    (deriveDateFeatures r0).CompetitionMonthsOpen ≤ 24 ∧
    0 ≤ (deriveDateFeatures r0).Promo2Weeks ∧
    (deriveDateFeatures r0).Promo2Weeks ≤ 25 ∧
    (r0.CompetitionOpenSinceYear < 1990 →
      (deriveDateFeatures r0).CompetitionDaysOpen = 0) ∧
    (r0.Promo2SinceYear < 1990 →
      (deriveDateFeatures r0).Promo2Days = 0) := by
  rw [deriveDateFeatures_eq]
  dsimp only
  refine ⟨?_, ?_, ?_, ?_, ?_, ?_, ?_, ?_⟩ <;> split_ifs <;> omega

/-- C4: `CompetitionOpenSince` is the calendar date
(CompetitionOpenSinceYear, CompetitionOpenSinceMonth, day 15);
`CompetitionDaysOpen` is the day difference of the row date from it,
zeroed when negative or when the year is below 1990; and
`CompetitionMonthsOpen` is `CompetitionDaysOpen // 30` with values above
24 replaced by 24. -/
theorem competition_features_formula (r0 : DFRow) :
    (deriveDateFeatures r0).CompetitionOpenSince =
      daysFromCivil r0.CompetitionOpenSinceYear
        r0.CompetitionOpenSinceMonth 15 ∧
    (deriveDateFeatures r0).CompetitionDaysOpen =
      (if r0.Date - daysFromCivil r0.CompetitionOpenSinceYear
            r0.CompetitionOpenSinceMonth 15 < 0 ∨
          r0.CompetitionOpenSinceYear < 1990 then 0
       else r0.Date - daysFromCivil r0.CompetitionOpenSinceYear
            r0.CompetitionOpenSinceMonth 15) ∧
    (deriveDateFeatures r0).CompetitionMonthsOpen =
      (if (deriveDateFeatures r0).CompetitionDaysOpen / 30 > 24 then 24
       else (deriveDateFeatures r0).CompetitionDaysOpen / 30) := by
  rw [deriveDateFeatures_eq]
  dsimp only
  refine ⟨rfl, ?_, ?_⟩ <;> split_ifs <;> omega

/-! ### Left-join lemmas and claims -/

theorem hasYSuffix_append_y (c : String) : hasYSuffix (c ++ "_y") = true := by
  unfold hasYSuffix
  rw [show (c ++ "_y").data = c.data ++ ['_', 'y'] from String.data_append c "_y",
    List.reverse_append]
  simp

theorem pdMerge_rows_of_unique (l r : Table) (lOn rOn : List String)
    (suf : String)
    (huniq : ∀ lrow ∈ l.rows, (matchesOf r lOn rOn lrow).length ≤ 1) :
    (pdMerge l r lOn rOn suf).rows =
      l.rows.map (fun lrow =>
        lrow ++ extOf r lOn rOn l.cols r.cols suf lrow) := by
  have key : ∀ L : List Row,
      (∀ lrow ∈ L, (matchesOf r lOn rOn lrow).length ≤ 1) →
      (L.flatMap (fun lrow =>
        let ms := matchesOf r lOn rOn lrow
        if ms.isEmpty then
          [lrow ++ (keptRightCols lOn rOn l.cols r.cols suf).map
            (fun c => (c, (none : Option Int)))]
        else
          ms.map (fun rrow => lrow ++ rightCells lOn rOn l.cols suf rrow))) =
      L.map (fun lrow => lrow ++ extOf r lOn rOn l.cols r.cols suf lrow) := by
    intro L
    induction L with
    | nil => intro _; rfl
    | cons a t ih =>
      intro h
      rw [List.flatMap_cons, List.map_cons,
        ih (fun x hx => h x (List.mem_cons_of_mem a hx))]
      rcases hm : matchesOf r lOn rOn a with _ | ⟨rr, rest⟩
      · simp [hm, extOf]
      · have hlen := h a (List.mem_cons_self a t)
        rw [hm] at hlen
        have hrest : rest = [] := by
          cases rest with
          | nil => rfl
          | cons b bs => simp at hlen
        subst hrest
        simp [hm, extOf]
  exact key l.rows huniq

theorem merge_rows_of_unique (l r : Table) (lOn : List String)
    (rOn : Option (List String)) (suffix : Option String)
    (huniq : ∀ lrow ∈ l.rows,
      (matchesOf r lOn (rOn.getD lOn) lrow).length ≤ 1) :
    (LeftMerger.merge l r lOn rOn suffix).rows =
      l.rows.map (fun lrow => rowFilterSuffix suffix
        (lrow ++ extOf r lOn (rOn.getD lOn) l.cols r.cols
          (suffix.getD "_y") lrow)) := by
  cases suffix with
  | none =>
    show (dropYCols (pdMerge l r lOn (rOn.getD lOn) "_y")).rows = _
    rw [show (dropYCols (pdMerge l r lOn (rOn.getD lOn) "_y")).rows =
      (pdMerge l r lOn (rOn.getD lOn) "_y").rows.map
        (fun row => row.filter (fun p => !hasYSuffix p.1)) from rfl]
    rw [pdMerge_rows_of_unique l r lOn (rOn.getD lOn) "_y" huniq,
      List.map_map]
    rfl
  | some s =>
    show (pdMerge l r lOn (rOn.getD lOn) s).rows = _
    rw [pdMerge_rows_of_unique l r lOn (rOn.getD lOn) s huniq]
    rfl

/-- C1 (amended): when each left row matches at most one right row, the
left-join utility keeps exactly the left rows in order (row `i` of the
output extends row `i` of the left input, modulo the suffix-less `_y$`
column drop), and an unmatched left row's appended right cells are all
NaN. -/
theorem left_join_preserves_rows (l r : Table) (lOn : List String)
    (rOn : Option (List String)) (suffix : Option String)
    (huniq : ∀ lrow ∈ l.rows,
      (matchesOf r lOn (rOn.getD lOn) lrow).length ≤ 1) :
    (LeftMerger.merge l r lOn rOn suffix).rows.length = l.rows.length ∧
    (∀ i, i < l.rows.length →
      ∃ ext : Row,
        (LeftMerger.merge l r lOn rOn suffix).rows.getD i [] =
          rowFilterSuffix suffix (l.rows.getD i [] ++ ext) ∧
        ((matchesOf r lOn (rOn.getD lOn) (l.rows.getD i [])).length = 0 →
          ∀ p ∈ ext, p.2 = (none : Option Int))) := by
  rw [merge_rows_of_unique l r lOn rOn suffix huniq]
  constructor
  · exact List.length_map _ _
  · intro i hi
    have hi' : i < (l.rows.map (fun lrow => rowFilterSuffix suffix
        (lrow ++ extOf r lOn (rOn.getD lOn) l.cols r.cols
          (suffix.getD "_y") lrow))).length := by
      simpa using hi
    refine ⟨extOf r lOn (rOn.getD lOn) l.cols r.cols (suffix.getD "_y")
      (l.rows.getD i []), ?_, ?_⟩
    · rw [List.getD_eq_getElem _ _ hi', List.getElem_map,
        List.getD_eq_getElem _ _ hi]
    · intro hzero p hp
      rcases hm : matchesOf r lOn (rOn.getD lOn) (l.rows.getD i []) with
        _ | ⟨rr, rest⟩
      · rw [extOf, hm] at hp
        simp at hp
        obtain ⟨c, hc, hpc⟩ := hp
        rw [← hpc]
      · rw [hm] at hzero
        simp at hzero

/-- C1 counterexample: a right table with two rows for the same key makes
the left-join output have more rows than the left input. -/
theorem left_join_row_count_cex :
    (LeftMerger.merge dupLeft dupRight ["k"] none none).rows.length ≠
      dupLeft.rows.length := by decide

/-- C1 witness: a two-row left table, one row matched and one unmatched. -/
theorem left_join_preserves_rows_witness :
    (∀ lrow ∈ wLeft.rows,
      (matchesOf wRight ["k"] ["k"] lrow).length ≤ 1) ∧
    ((LeftMerger.merge wLeft wRight ["k"] none none).rows.length =
      wLeft.rows.length ∧
    (∀ i, i < wLeft.rows.length →
      ∃ ext : Row,
        (LeftMerger.merge wLeft wRight ["k"] none none).rows.getD i [] =
          rowFilterSuffix none (wLeft.rows.getD i [] ++ ext) ∧
        ((matchesOf wRight ["k"] ["k"] (wLeft.rows.getD i [])).length = 0 →
          ∀ p ∈ ext, p.2 = (none : Option Int)))) :=
  ⟨by decide, left_join_preserves_rows wLeft wRight ["k"] none none (by decide)⟩

theorem lookup_append_of_mem {row z : Row} {c : String} (h : c ∈ names row) :
    lookup (row ++ z) c = lookup row c := by
  unfold lookup
  rw [List.find?_append]
  have hs : (row.find? (fun p => p.1 == c)).isSome := by
    rw [List.find?_isSome]
    obtain ⟨p, hp, hpc⟩ := List.mem_map.mp h
    exact ⟨p, hp, by simp [hpc]⟩
  cases hf : row.find? (fun p => p.1 == c) with
  | none => rw [hf] at hs; simp at hs
  | some p => simp [Option.or]

/-- C10: a suffix-less invocation of the left-join utility leaves no
column whose name ends in `_y` — neither in the schema nor in any row —
so any original column ending in `_y` (of either side, colliding or not)
is silently dropped. -/
theorem suffixless_merge_drops_y (l r : Table) (lOn : List String)
    (rOn : Option (List String)) :
    (∀ c ∈ (LeftMerger.merge l r lOn rOn none).cols, ¬ hasYSuffix c = true) ∧
    (∀ row ∈ (LeftMerger.merge l r lOn rOn none).rows, ∀ p ∈ row,
      ¬ hasYSuffix p.1 = true) ∧
    (∀ c ∈ l.cols, hasYSuffix c = true →
      c ∉ (LeftMerger.merge l r lOn rOn none).cols) := by
  have h1 : ∀ c ∈ (LeftMerger.merge l r lOn rOn none).cols,
      ¬ hasYSuffix c = true := by
    intro c hc
    have hm : c ∈ (pdMerge l r lOn (rOn.getD lOn) "_y").cols.filter
        (fun c => !hasYSuffix c) := hc
    have := (List.mem_filter.mp hm).2
    simpa using this
  refine ⟨h1, ?_, ?_⟩
  · intro row hrow p hp
    have hm : row ∈ (pdMerge l r lOn (rOn.getD lOn) "_y").rows.map
        (fun r0 => r0.filter (fun p => !hasYSuffix p.1)) := hrow
    obtain ⟨r0, _, hr0⟩ := List.mem_map.mp hm
    rw [← hr0] at hp
    have := (List.mem_filter.mp hp).2
    simpa using this
  · intro c _ hy hmem
    exact (h1 c hmem) hy

/-- C10 witness: a left table whose own column `b_y` ends in `_y`. -/
theorem suffixless_merge_drops_y_witness :
    (∀ c ∈ (LeftMerger.merge yLeft yRight ["k"] none none).cols,
      ¬ hasYSuffix c = true) ∧
    (∀ row ∈ (LeftMerger.merge yLeft yRight ["k"] none none).rows,
      ∀ p ∈ row, ¬ hasYSuffix p.1 = true) ∧
    (∀ c ∈ yLeft.cols, hasYSuffix c = true →
      c ∉ (LeftMerger.merge yLeft yRight ["k"] none none).cols) :=
  suffixless_merge_drops_y yLeft yRight ["k"] none

/-- C2 counterexample: the left table's own non-colliding column `b_y`
does not survive a suffix-less merge, though the claim says every
non-colliding column of both sides survives under its original name. -/
theorem collision_policy_cex :
    "b_y" ∈ yLeft.cols ∧
    "b_y" ∉ mergedKeys ["k"] ["k"] ∧
    "b_y" ∉ yRight.cols ∧
    "b_y" ∉ (LeftMerger.merge yLeft yRight ["k"] none none).cols := by
  decide

/-- C2 (amended): provided no original column name of either side ends in
`_y`, the suffix-less merge drops exactly the colliding right-side
columns (every left column and every non-colliding right column survives
under its original name), and within each output row the left column's
value is the one reported for every left column name; with a suffix, the
colliding right columns survive renamed by the suffix alongside the left
ones. -/
theorem collision_policy (l r : Table) (lOn : List String)
    (rOn : Option (List String)) (s : String)
    (hl : ∀ c ∈ l.cols, ¬ hasYSuffix c = true)
    (hr : ∀ c ∈ r.cols, ¬ hasYSuffix c = true)
    (hrows : ∀ row ∈ l.rows, names row = l.cols) :
    (LeftMerger.merge l r lOn rOn none).cols =
      l.cols ++ r.cols.filter (fun c =>
        !l.cols.contains c && !(mergedKeys lOn (rOn.getD lOn)).contains c) ∧
    (∀ orow ∈ (LeftMerger.merge l r lOn rOn none).rows,
      ∃ lrow ∈ l.rows, ∀ c ∈ l.cols, lookup orow c = lookup lrow c) ∧
    (LeftMerger.merge l r lOn rOn (some s)).cols =
      l.cols ++ (r.cols.filter (fun c =>
        !(mergedKeys lOn (rOn.getD lOn)).contains c)).map
        (fun c => if l.cols.contains c then c ++ s else c) := by
  refine ⟨?_, ?_, ?_⟩
  · show ((pdMerge l r lOn (rOn.getD lOn) "_y").cols).filter
      (fun c => !hasYSuffix c) = _
    show (l.cols ++ keptRightCols lOn (rOn.getD lOn) l.cols r.cols
      "_y").filter (fun c => !hasYSuffix c) = _
    rw [List.filter_append]
    congr 1
    · exact List.filter_eq_self.mpr (fun c hc => by simpa using hl c hc)
    · unfold keptRightCols
      rw [List.filter_map]
      rw [List.filter_filter]
      rw [List.filter_congr (fun c hc => ?_)]
      · rw [List.map_congr_left (fun c hc => ?_), List.map_id']
        unfold renameRight
        rw [if_neg]
        intro hcon
        have := (List.mem_filter.mp hc).2
        simp at this
        exact this.1 (by simpa using hcon)
      · show (!hasYSuffix (renameRight l.cols "_y" c) &&
          !(mergedKeys lOn (rOn.getD lOn)).contains c) = _
        unfold renameRight
        by_cases hcon : l.cols.contains c
        · rw [if_pos hcon]
          simp only [hasYSuffix_append_y, hcon]
        · rw [if_neg hcon]
          have hny : ¬ hasYSuffix c = true := hr c hc
          simp only [hcon]
          simp [hny]
  · intro orow horow
    have hm : orow ∈ (pdMerge l r lOn (rOn.getD lOn) "_y").rows.map
        (fun r0 => r0.filter (fun p => !hasYSuffix p.1)) := horow
    obtain ⟨prow, hprow, hfeq⟩ := List.mem_map.mp hm
    obtain ⟨lrow, hlrow, hbranch⟩ := List.mem_flatMap.mp hprow
    have hshape : ∃ ext : Row, prow = lrow ++ ext := by
      dsimp only at hbranch
      split at hbranch
      · exact ⟨_, (List.mem_singleton.mp hbranch)⟩
      · obtain ⟨rrow, _, heq⟩ := List.mem_map.mp hbranch
        exact ⟨_, heq.symm⟩
    obtain ⟨ext, rfl⟩ := hshape
    refine ⟨lrow, hlrow, ?_⟩
    intro c hcl
    have hlnames : names lrow = l.cols := hrows lrow hlrow
    have hlfilter : lrow.filter (fun p => !hasYSuffix p.1) = lrow := by
      apply List.filter_eq_self.mpr
      intro p hp
      have hpn : p.1 ∈ l.cols := by
        rw [← hlnames]
        exact List.mem_map_of_mem Prod.fst hp
      simpa using hl p.1 hpn
    rw [← hfeq, List.filter_append, hlfilter]
    have hcin : c ∈ names lrow := by rw [hlnames]; exact hcl
    exact lookup_append_of_mem hcin
  · show (pdMerge l r lOn (rOn.getD lOn) s).cols = _
    unfold pdMerge keptRightCols renameRight
    rfl

/-- C2 witness: right column `x` collides with a left column, `w` does
not. -/
theorem collision_policy_witness :
    ((∀ c ∈ sLeft.cols, ¬ hasYSuffix c = true) ∧
     (∀ c ∈ sRight.cols, ¬ hasYSuffix c = true) ∧
     (∀ row ∈ sLeft.rows, names row = sLeft.cols)) ∧
    ((LeftMerger.merge sLeft sRight ["k"] none none).cols =
      sLeft.cols ++ sRight.cols.filter (fun c =>
        !sLeft.cols.contains c && !(mergedKeys ["k"] ["k"]).contains c) ∧
    (∀ orow ∈ (LeftMerger.merge sLeft sRight ["k"] none none).rows,
      ∃ lrow ∈ sLeft.rows, ∀ c ∈ sLeft.cols,
        lookup orow c = lookup lrow c) ∧
    (LeftMerger.merge sLeft sRight ["k"] none (some "_r")).cols =
      sLeft.cols ++ (sRight.cols.filter (fun c =>
        !(mergedKeys ["k"] ["k"]).contains c)).map
        (fun c => if sLeft.cols.contains c then c ++ "_r" else c)) :=
  ⟨⟨by decide, by decide, by decide⟩,
   collision_policy sLeft sRight ["k"] none "_r"
     (by decide) (by decide) (by decide)⟩

/-! ### Event-proximity lemmas and claim -/

theorem ffill_length {α : Type} (init : Option α) (l : List (Option α)) :
    (ffill init l).length = l.length := by
  induction l generalizing init with
  | nil => rfl
  | cons x xs ih => simp [ffill, ih]

theorem ffill_getD {α : Type} (l : List (Option α)) (init : Option α)
    (i : Nat) (hi : i < l.length) :
    (ffill init l).getD i none = (l.take (i + 1)).foldl stepLast init := by
  induction l generalizing init i with
  | nil => simp at hi
  | cons x xs ih =>
    cases i with
    | zero => rfl
    | succ i =>
      have hx : ffill init (x :: xs) = stepLast init x ::
          ffill (stepLast init x) xs := rfl
      rw [hx]
      show (ffill (stepLast init x) xs).getD i none = _
      rw [ih (stepLast init x) i (by simpa using hi)]
      rfl

theorem foldl_stepLast_map (c : Nat → Bool) (v : Nat → Int)
    (is : List Nat) (init : Option Int) :
    ((is.map (fun j => if c j then some (v j) else none)).foldl
      stepLast init) =
    (match (is.filter c).getLast? with
     | some j => some (v j)
     | none => init) := by
  induction is using List.reverseRecOn generalizing init with
  | nil => rfl
  | append_singleton is j ih =>
    rw [List.map_append, List.foldl_append, List.filter_append, ih]
    by_cases hc : c j
    · simp only [List.map_cons, List.map_nil, List.foldl_cons,
        List.foldl_nil, List.filter_cons, hc, if_pos, List.filter_nil]
      rw [List.getLast?_concat]
      cases hlast : (is.filter c).getLast? <;> rfl
    · simp only [List.map_cons, List.map_nil, List.foldl_cons,
        List.foldl_nil, List.filter_cons, hc, List.filter_nil]
      simp only [Bool.false_eq_true, if_false, List.append_nil]
      cases hlast : (is.filter c).getLast? <;> rfl

theorem foldl_stepLast_map_reverse (c : Nat → Bool) (v : Nat → Int)
    (is : List Nat) (init : Option Int) :
    (((is.map (fun j => if c j then some (v j) else none)).reverse).foldl
      stepLast init) =
    (match (is.filter c).head? with
     | some j => some (v j)
     | none => init) := by
  induction is generalizing init with
  | nil => rfl
  | cons j rest ih =>
    rw [List.map_cons, List.reverse_cons, List.foldl_append]
    by_cases hc : c j
    · simp only [List.filter_cons, hc, if_pos, List.foldl_cons,
        List.foldl_nil]
      simp [stepLast]
    · simp only [List.filter_cons, hc]
      simp only [Bool.false_eq_true, if_false, List.foldl_cons,
        List.foldl_nil]
      rw [show stepLast ((List.map (fun j => if c j then some (v j)
        else none) rest).reverse.foldl stepLast init) none =
        (List.map (fun j => if c j then some (v j) else none)
          rest).reverse.foldl stepLast init from rfl]
      exact ih init

theorem carryDates_length (rows : List (Int × Bool)) :
    (carryDates rows).length = rows.length := by
  simp [carryDates]

theorem afterEvent_getD (rows : List (Int × Bool)) (i : Nat)
    (hi : i < rows.length) :
    (afterEvent rows).getD i none =
      (match lastCarryIdx rows i with
       | some j => some ((rows.getD i (0, false)).1 -
           (rows.getD j (0, false)).1)
       | none => none) := by
  have hcl : (carryDates rows).length = rows.length := carryDates_length rows
  have hfl : (ffill none (carryDates rows)).length = rows.length := by
    rw [ffill_length, hcl]
  have hzl : (rows.zip (ffill none (carryDates rows))).length =
      rows.length := by
    rw [List.length_zip, hfl, min_self]
  have hml : i < ((rows.zip (ffill none (carryDates rows))).map
      (fun p => p.2.map (fun v => p.1.1 - v))).length := by
    rw [List.length_map, hzl]; exact hi
  show ((rows.zip (ffill none (carryDates rows))).map
      (fun p => p.2.map (fun v => p.1.1 - v))).getD i none = _
  rw [List.getD_eq_getElem _ _ hml, List.getElem_map, List.getElem_zip]
  have hib : i < (ffill none (carryDates rows)).length := by
    rw [hfl]; exact hi
  have hffget : (ffill none (carryDates rows))[i] =
      (ffill none (carryDates rows)).getD i none :=
    (List.getD_eq_getElem _ _ hib).symm
  rw [hffget, ffill_getD _ _ _ (by rw [hcl]; exact hi)]
  show ((((List.range rows.length).map (fun j =>
      if isCarry rows j then some (rows.getD j (0, false)).1
      else none)).take (i + 1)).foldl stepLast none).map _ = _
  rw [← List.map_take, List.take_range,
    min_eq_left (by omega : i + 1 ≤ rows.length)]
  rw [foldl_stepLast_map (fun j => isCarry rows j)
    (fun j => (rows.getD j (0, false)).1) (List.range (i + 1)) none]
  show (match lastCarryIdx rows i with
    | some j => some (rows.getD j (0, false)).1
    | none => none).map (fun v => rows[i].1 - v) = _
  rw [List.getD_eq_getElem rows _ hi]
  cases hm : lastCarryIdx rows i <;> rfl

theorem beforeEvent_getD (rows : List (Int × Bool)) (i : Nat)
    (hi : i < rows.length) :
    (beforeEvent rows).getD i none =
      (match nextCarryIdx rows i with
       | some j => some ((rows.getD j (0, false)).1 -
           (rows.getD i (0, false)).1)
       | none => none) := by
  have hcl : (carryDates rows).length = rows.length := carryDates_length rows
  have hrl : (carryDates rows).reverse.length = rows.length := by
    rw [List.length_reverse, hcl]
  have hfl : (ffill none (carryDates rows).reverse).length = rows.length := by
    rw [ffill_length, hrl]
  have hbl : (bfill (carryDates rows)).length = rows.length := by
    show ((ffill none (carryDates rows).reverse).reverse).length = _
    rw [List.length_reverse, hfl]
  have hzl : (rows.zip (bfill (carryDates rows))).length = rows.length := by
    rw [List.length_zip, hbl, min_self]
  have hml : i < ((rows.zip (bfill (carryDates rows))).map
      (fun p => p.2.map (fun v => v - p.1.1))).length := by
    rw [List.length_map, hzl]; exact hi
  show ((rows.zip (bfill (carryDates rows))).map
      (fun p => p.2.map (fun v => v - p.1.1))).getD i none = _
  rw [List.getD_eq_getElem _ _ hml, List.getElem_map, List.getElem_zip]
  have hb1 : i < (bfill (carryDates rows)).length := by
    rw [hbl]; exact hi
  have hb1r : i < ((ffill none (carryDates rows).reverse).reverse).length :=
    hb1
  have hb2 : rows.length - 1 - i <
      (ffill none (carryDates rows).reverse).length := by
    rw [hfl]; omega
  have hbget : (bfill (carryDates rows))[i] =
      (ffill none (carryDates rows).reverse)[rows.length - 1 - i] := by
    show ((ffill none (carryDates rows).reverse).reverse)[i] = _
    rw [List.getElem_reverse]
    congr 1
    rw [hfl]
  rw [hbget]
  have hidx : rows.length - 1 - i < (carryDates rows).reverse.length := by
    rw [hrl]; omega
  have hgget : (ffill none (carryDates rows).reverse)[rows.length - 1 - i] =
      (ffill none (carryDates rows).reverse).getD (rows.length - 1 - i)
        none :=
    (List.getD_eq_getElem _ _ hb2).symm
  rw [hgget, ffill_getD _ _ _ hidx]
  have htake : (carryDates rows).reverse.take (rows.length - 1 - i + 1) =
      ((List.range rows.length).drop i).reverse.map (fun j =>
        if isCarry rows j then some (rows.getD j (0, false)).1
        else none) := by
    show (((List.range rows.length).map (fun j =>
      if isCarry rows j then some (rows.getD j (0, false)).1
      else none)).reverse).take (rows.length - 1 - i + 1) = _
    rw [← List.map_reverse, ← List.map_take]
    congr 1
    rw [List.reverse_drop, List.length_range]
    congr 1
    omega
  rw [htake, List.map_reverse,
    foldl_stepLast_map_reverse (fun j => isCarry rows j)
      (fun j => (rows.getD j (0, false)).1)
      ((List.range rows.length).drop i) none]
  show (match nextCarryIdx rows i with
    | some j => some (rows.getD j (0, false)).1
    | none => none).map (fun v => v - rows[i].1) = _
  rw [List.getD_eq_getElem rows _ hi]
  cases hm : nextCarryIdx rows i <;> rfl

theorem lastCarryIdx_isSome (rows : List (Int × Bool)) (i : Nat) :
    ∃ j, lastCarryIdx rows i = some j := by
  have hmem : 0 ∈ (List.range (i + 1)).filter (fun j => isCarry rows j) := by
    rw [List.mem_filter]
    exact ⟨List.mem_range.mpr (by omega), by simp [isCarry]⟩
  have hne : (List.range (i + 1)).filter (fun j => isCarry rows j) ≠ [] :=
    List.ne_nil_of_mem hmem
  have := List.getLast?_isSome.mpr hne
  exact Option.isSome_iff_exists.mp this

theorem nextCarryIdx_isSome (rows : List (Int × Bool)) (i : Nat)
    (hi : i < rows.length) :
    ∃ j, nextCarryIdx rows i = some j := by
  have hlen : ((List.range rows.length).drop i).length =
      rows.length - i := by
    rw [List.length_drop, List.length_range]
  have hlb : rows.length - 1 - i <
      ((List.range rows.length).drop i).length := by omega
  have hget : ((List.range rows.length).drop i)[rows.length - 1 - i] =
      rows.length - 1 := by
    rw [List.getElem_drop]
    rw [List.getElem_range]
    omega
  have hmem : rows.length - 1 ∈ (List.range rows.length).drop i := by
    rw [← hget]
    exact List.getElem_mem _
  have hmemf : rows.length - 1 ∈
      ((List.range rows.length).drop i).filter
        (fun j => isCarry rows j) := by
    rw [List.mem_filter]
    refine ⟨hmem, ?_⟩
    simp [isCarry]
  have hne : ((List.range rows.length).drop i).filter
      (fun j => isCarry rows j) ≠ [] := List.ne_nil_of_mem hmemf
  have := List.head?_isSome.mpr hne
  exact Option.isSome_iff_exists.mp this

/-- C5: per store and event field, over the store's date-sorted rows, a
row is a carry point iff its flag is set or it is the first or last row;
`After<Event>` at row `i` is the row date minus the date of the nearest
carry point at or before `i`, and `Before<Event>` is the date of the
nearest carry point at or after `i` minus the row date, both always
defined. -/
theorem event_proximity (rows : List (Int × Bool)) (i : Nat)
    (hi : i < rows.length) :
    ∃ ja jb : Nat,
      lastCarryIdx rows i = some ja ∧
      nextCarryIdx rows i = some jb ∧
      (afterEvent rows).getD i none =
        some ((rows.getD i (0, false)).1 - (rows.getD ja (0, false)).1) ∧
      (beforeEvent rows).getD i none =
        some ((rows.getD jb (0, false)).1 - (rows.getD i (0, false)).1) := by
  obtain ⟨ja, hja⟩ := lastCarryIdx_isSome rows i
  obtain ⟨jb, hjb⟩ := nextCarryIdx_isSome rows i hi
  refine ⟨ja, jb, hja, hjb, ?_, ?_⟩
  · rw [afterEvent_getD rows i hi, hja]
  · rw [beforeEvent_getD rows i hi, hjb]

/-- C5 witness: a store on 3 consecutive days with the event true only on
day 2. -/
theorem event_proximity_witness :
    (1 < [((10 : Int), false), (11, true), (12, false)].length) ∧
    (∃ ja jb : Nat,
      lastCarryIdx [((10 : Int), false), (11, true), (12, false)] 1 =
        some ja ∧
      nextCarryIdx [((10 : Int), false), (11, true), (12, false)] 1 =
        some jb ∧
      (afterEvent [((10 : Int), false), (11, true), (12, false)]).getD 1
          none =
        some (([((10 : Int), false), (11, true), (12, false)].getD 1
            (0, false)).1 -
          ([((10 : Int), false), (11, true), (12, false)].getD ja
            (0, false)).1) ∧
      (beforeEvent [((10 : Int), false), (11, true), (12, false)]).getD 1
          none =
        some (([((10 : Int), false), (11, true), (12, false)].getD jb
            (0, false)).1 -
          ([((10 : Int), false), (11, true), (12, false)].getD 1
            (0, false)).1)) :=
  ⟨by decide, event_proximity [(10, false), (11, true), (12, false)] 1
    (by decide)⟩

/-! ### Rolling-sum lemmas and claim -/

theorem filter_range_ge (a n : Nat) :
    (List.range n).filter (fun j => a ≤ j) = List.range' a (n - a) := by
  induction n with
  | zero => rw [Nat.zero_sub]; rfl
  | succ n ih =>
    rw [List.range_succ, List.filter_append, ih]
    by_cases h : a ≤ n
    · have hf : [n].filter (fun j => a ≤ j) = [n] := by simp [h]
      rw [hf]
      have hn : n + 1 - a = (n - a) + 1 := by omega
      rw [hn, List.range'_1_concat]
      congr 2
      omega
    · have hf : [n].filter (fun j => a ≤ j) = [] := by simp [h]
      rw [hf]
      have h1 : n + 1 - a = 0 := by omega
      have h2 : n - a = 0 := by omega
      rw [h1, h2]
      rfl

theorem filter_range_interval (a b n : Nat) (hb : b < n) :
    (List.range n).filter (fun j => a ≤ j && j ≤ b) =
      List.range' a (b + 1 - a) := by
  induction n with
  | zero => omega
  | succ n ih =>
    rw [List.range_succ, List.filter_append]
    by_cases hbn : b < n
    · rw [ih hbn]
      have hf : [n].filter (fun j => a ≤ j && j ≤ b) = [] := by
        simp only [List.filter_cons, List.filter_nil]
        have : ¬ (n ≤ b) := by omega
        simp [this]
      rw [hf, List.append_nil]
    · have hbe : b = n := by omega
      subst hbe
      have hcong : (List.range b).filter (fun j => a ≤ j && j ≤ b) =
          (List.range b).filter (fun j => a ≤ j) := by
        apply List.filter_congr
        intro j hj
        have : j ≤ b := by
          have := List.mem_range.mp hj
          omega
        simp [this]
      rw [hcong, filter_range_ge]
      by_cases h : a ≤ b
      · have hf : [b].filter (fun j => a ≤ j && j ≤ b) = [b] := by
          simp [h]
        rw [hf]
        have hn : b + 1 - a = (b - a) + 1 := by omega
        rw [hn, List.range'_1_concat]
        congr 2
        omega
      · have hf : [b].filter (fun j => a ≤ j && j ≤ b) = [] := by
          simp [h]
        rw [hf]
        have h1 : b + 1 - a = 0 := by omega
        have h2 : b - a = 0 := by omega
        rw [h1, h2]
        rfl

theorem take_drop_eq_range'_map (xs : List Int) (a b : Nat)
    (hb : b ≤ xs.length) (hab : a ≤ b) :
    (xs.take b).drop a =
      (List.range' a (b - a)).map (fun j => xs.getD j 0) := by
  apply List.ext_getElem
  · rw [List.length_drop, List.length_take, List.length_map,
      List.length_range']
    omega
  · intro t h1 h2
    have ht : t < b - a := by
      rw [List.length_map, List.length_range'] at h2
      exact h2
    have hat : a + t < b := by omega
    have hatl : a + t < xs.length := by omega
    rw [List.getElem_drop, List.getElem_take, List.getElem_map,
      List.getElem_range', one_mul, List.getD_eq_getElem xs 0 hatl]

theorem windowSumTrailing_eq_range' (xs : List Int) (i : Nat)
    (hi : i < xs.length) :
    windowSumTrailing xs i =
      ((List.range' (i + 1 - 7) (i + 1 - (i + 1 - 7))).map
        (fun j => xs.getD j 0)).sum := by
  unfold windowSumTrailing
  have hcong : (List.range xs.length).filter (fun j => j ≤ i && i ≤ j + 6) =
      (List.range xs.length).filter (fun j => i + 1 - 7 ≤ j && j ≤ i) := by
    apply List.filter_congr
    intro j _
    by_cases h1 : j ≤ i <;> by_cases h2 : i ≤ j + 6 <;>
      simp [h1, h2] <;> omega
  rw [hcong, filter_range_interval _ _ _ hi]

theorem windowSumLeading_eq_range' (xs : List Int) (i : Nat)
    (hi : i < xs.length) :
    windowSumLeading xs i =
      ((List.range' i (min 7 (xs.length - i))).map
        (fun j => xs.getD j 0)).sum := by
  unfold windowSumLeading
  have hb : min (i + 6) (xs.length - 1) < xs.length := by omega
  have hcong : (List.range xs.length).filter (fun j => i ≤ j && j ≤ i + 6) =
      (List.range xs.length).filter
        (fun j => i ≤ j && j ≤ min (i + 6) (xs.length - 1)) := by
    apply List.filter_congr
    intro j hj
    have hjn : j < xs.length := List.mem_range.mp hj
    by_cases h1 : i ≤ j <;> by_cases h2 : j ≤ i + 6 <;>
      simp [h1, h2] <;> omega
  rw [hcong, filter_range_interval _ _ _ hb]
  have hcount : min (i + 6) (xs.length - 1) + 1 - i =
      min 7 (xs.length - i) := by omega
  rw [hcount]

theorem bwdRolling_getD (xs : List Int) (i : Nat) (hi : i < xs.length) :
    (bwdRolling xs).getD i none = some (windowSumTrailing xs i) := by
  unfold bwdRolling rollingSum
  have hml : i < ((List.range xs.length).map (fun i =>
      let win := (xs.take (i + 1)).drop (i + 1 - 7)
      if 1 ≤ win.length then some win.sum else none)).length := by
    rw [List.length_map, List.length_range]
    exact hi
  rw [List.getD_eq_getElem _ _ hml, List.getElem_map, List.getElem_range]
  have hwl : ((xs.take (i + 1)).drop (i + 1 - 7)).length =
      (i + 1) - (i + 1 - 7) := by
    rw [List.length_drop, List.length_take]
    omega
  show (if 1 ≤ ((xs.take (i + 1)).drop (i + 1 - 7)).length then
    some ((xs.take (i + 1)).drop (i + 1 - 7)).sum else none) = _
  rw [if_pos (by omega : 1 ≤ ((xs.take (i + 1)).drop (i + 1 - 7)).length)]
  congr 1
  rw [take_drop_eq_range'_map xs (i + 1 - 7) (i + 1) (by omega) (by omega),
    windowSumTrailing_eq_range' xs i hi]

theorem windowSumTrailing_reverse (xs : List Int) (i : Nat)
    (hi : i < xs.length) :
    windowSumTrailing xs.reverse (xs.length - 1 - i) =
      windowSumLeading xs i := by
  have hrev : xs.length - 1 - i < xs.reverse.length := by
    rw [List.length_reverse]
    omega
  rw [windowSumTrailing_eq_range' xs.reverse (xs.length - 1 - i) hrev,
    windowSumLeading_eq_range' xs i hi]
  have hlist : (List.range' (xs.length - 1 - i + 1 - 7)
      (xs.length - 1 - i + 1 - (xs.length - 1 - i + 1 - 7))).map
        (fun j => xs.reverse.getD j 0) =
      ((List.range' i (min 7 (xs.length - i))).map
        (fun j => xs.getD j 0)).reverse := by
    apply List.ext_getElem
    · rw [List.length_map, List.length_range', List.length_reverse,
        List.length_map, List.length_range']
      omega
    · intro t h1 h2
      have hk : t < min 7 (xs.length - i) := by
        rw [List.length_map, List.length_range'] at h1
        omega
      rw [List.getElem_map, List.getElem_range']
      rw [List.getElem_reverse, List.getElem_map, List.getElem_range']
      simp only [one_mul, List.length_map, List.length_range']
      have hL : xs.length - 1 - i + 1 - 7 + t < xs.reverse.length := by
        rw [List.length_reverse]
        omega
      rw [List.getD_eq_getElem xs.reverse 0 hL, List.getElem_reverse]
      rw [List.getD_eq_getElem xs 0 (by omega)]
      congr 1
      omega
  rw [hlist, List.sum_reverse]

theorem fwdRolling_getD (xs : List Int) (i : Nat) (hi : i < xs.length) :
    (fwdRolling xs).getD i none = some (windowSumLeading xs i) := by
  unfold fwdRolling
  have hrl : (rollingSum 7 1 xs.reverse).length = xs.length := by
    unfold rollingSum
    rw [List.length_map, List.length_range, List.length_reverse]
  have hml : i < ((rollingSum 7 1 xs.reverse).reverse).length := by
    rw [List.length_reverse, hrl]
    exact hi
  rw [List.getD_eq_getElem _ _ hml, List.getElem_reverse]
  have hidx : (rollingSum 7 1 xs.reverse).length - 1 - i <
      xs.reverse.length := by
    rw [hrl, List.length_reverse]
    omega
  have hgb : (rollingSum 7 1 xs.reverse).length - 1 - i <
      (rollingSum 7 1 xs.reverse).length := by omega
  have hgd : (rollingSum 7 1 xs.reverse)[(rollingSum 7 1
      xs.reverse).length - 1 - i] =
      (rollingSum 7 1 xs.reverse).getD
        ((rollingSum 7 1 xs.reverse).length - 1 - i) none :=
    (List.getD_eq_getElem _ _ hgb).symm
  rw [hgd]
  show (bwdRolling xs.reverse).getD
    ((rollingSum 7 1 xs.reverse).length - 1 - i) none = _
  rw [hrl]
  rw [bwdRolling_getD xs.reverse (xs.length - 1 - i)
    (by rw [List.length_reverse]; omega)]
  rw [windowSumTrailing_reverse xs i hi]

/-- C6: per store and event field, `<Event>_bw` at each row is the sum of
the flags over the trailing window of the current row and up to 6
preceding rows, `<Event>_fw` the sum over the leading window of the
current row and up to 6 following rows, and both are always defined (a
short window at a range boundary still sums the available rows). -/
theorem rolling_sums (xs : List Int) (i : Nat) (hi : i < xs.length) :
    (bwdRolling xs).getD i none = some (windowSumTrailing xs i) ∧
    (fwdRolling xs).getD i none = some (windowSumLeading xs i) :=
  ⟨bwdRolling_getD xs i hi, fwdRolling_getD xs i hi⟩

/-- C6 witness: a 4-row store range evaluated at position 2. -/
theorem rolling_sums_witness :
    (2 < [(1 : Int), 0, 1, 1].length) ∧
    ((bwdRolling [(1 : Int), 0, 1, 1]).getD 2 none =
      some (windowSumTrailing [(1 : Int), 0, 1, 1] 2) ∧
    (fwdRolling [(1 : Int), 0, 1, 1]).getD 2 none =
      some (windowSumLeading [(1 : Int), 0, 1, 1] 2)) :=
  ⟨by decide, rolling_sums [1, 0, 1, 1] 2 (by decide)⟩

end Rossmann
